import Mathlib

/-!
# Verification of the fractal-flame renderer

A shallow embedding of the repository's Python sources (`pixel.py`,
`point.py`, `rect.py`, `fractal_image.py`, `main.py`) together with proofs
of the specification's claims about them.

Modelling conventions:
* Python integers are `ℤ` (or `ℕ` where the program only ever produces
  non-negative values, e.g. `hit_count`, image dimensions).
* Python floats are embedded as exact rationals `ℚ`; `int(x)` on a
  non-negative value is the floor and on a negative value the ceiling
  (truncation toward zero), captured by `pyInt`.
* Fallible Python code (division that can raise `ZeroDivisionError`)
  returns `Option`.
* The transcendental helpers `math.sin` / `math.cos` and the number `pi`
  are abstracted as function/value parameters `sinQ cosQ : ℚ → ℚ`, `piQ : ℚ`.
* Randomness (`random.uniform`, `random.choice`, `random.random`) is
  supplied by an explicit oracle of pre-drawn values.
* The buffer lock only serializes `add_hit`; a single worker's execution is
  modelled as the sequential state transformer below.
-/

namespace FractalFlame

/-- Python `int()` applied to an exact real value: truncation toward zero
(`floor` for non-negative arguments, `ceil` for negative ones). -/
def pyInt (q : ℚ) : ℤ := if q < 0 then ⌈q⌉ else ⌊q⌋

/-- An RGB color triple, as produced in `main.py` (three Python ints). -/
abbrev Color := ℤ × ℤ × ℤ

/-- Source: `point.py`: a 2D point; float coordinates embedded as `ℚ`. -/
structure Point where
  x : ℚ
  y : ℚ
deriving DecidableEq

/-- Source: `rect.py`: an axis-aligned rectangle; float fields embedded as `ℚ`. -/
structure Rect where
  x : ℚ
  y : ℚ
  width : ℚ
  height : ℚ

/-- Source: `pixel.py`: one pixel accumulator.  Channels are Python ints; the
program only ever constructs pixels with `hit_count = 0` and increments it,
so `hit_count : ℕ`. -/
structure Pixel where
  r : ℤ
  g : ℤ
  b : ℤ
  hit_count : ℕ
deriving DecidableEq

/-- Source: `Pixel()`: the zero-initialized pixel (all defaults). -/
def Pixel.init : Pixel := ⟨0, 0, 0, 0⟩

/-- Source: `Pixel.mix_color(color, weight)`: each channel becomes
`int((old*hit_count + new*weight) / (hit_count + weight))`, then
`hit_count` is incremented by 1.  The division is Python float `/` on a
zero denominator raises `ZeroDivisionError`, hence the `Option`; on exact
values `int(a/b)` is truncation toward zero, i.e. `Int.tdiv`. -/
def Pixel.mix_color (p : Pixel) (color : Color) (weight : ℤ) : Option Pixel :=
  if (p.hit_count : ℤ) + weight = 0 then none
  else some
    { r := Int.tdiv (p.r * p.hit_count + color.1 * weight) (p.hit_count + weight)
      g := Int.tdiv (p.g * p.hit_count + color.2.1 * weight) (p.hit_count + weight)
      b := Int.tdiv (p.b * p.hit_count + color.2.2 * weight) (p.hit_count + weight)
      hit_count := p.hit_count + 1 }

/-- Source: `Pixel.mix_color` at the default `weight = 1`, where the denominator
`hit_count + 1` is positive, so the call always succeeds (total). -/
def Pixel.mix_color1 (p : Pixel) (color : Color) : Pixel :=
  { r := Int.tdiv (p.r * p.hit_count + color.1 * 1) (p.hit_count + 1)
    g := Int.tdiv (p.g * p.hit_count + color.2.1 * 1) (p.hit_count + 1)
    b := Int.tdiv (p.b * p.hit_count + color.2.2 * 1) (p.hit_count + 1)
    hit_count := p.hit_count + 1 }

/-- Source: `fractal_image.py`: the pixel grid.  `data` is the list of rows built
by the constructor; the `threading.Lock` only serializes `add_hit` calls
and has no sequential content, so it is not part of the state. -/
structure FractalImage where
  width : ℕ
  height : ℕ
  data : List (List Pixel)
deriving DecidableEq

/-- Source: `FractalImage(width, height)`: `height` rows of `width` zero pixels. -/
def FractalImage.init (width height : ℕ) : FractalImage :=
  ⟨width, height, List.replicate height (List.replicate width Pixel.init)⟩

/-- Source: `FractalImage.contains(x, y)`: `0 <= x < width and 0 <= y < height`. -/
def FractalImage.contains (img : FractalImage) (x y : ℤ) : Bool :=
  decide (0 ≤ x ∧ x < (img.width : ℤ) ∧ 0 ≤ y ∧ y < (img.height : ℤ))

/-- Reading the pixel `data[y][x]` of the grid (row-major, as in the
source); out-of-range reads default to the zero pixel. -/
def FractalImage.getPixel (img : FractalImage) (x y : ℕ) : Pixel :=
  (img.data.getD y []).getD x Pixel.init

/-- Well-formedness of the grid as the constructor builds it: `height`
rows, each of length `width`. -/
def FractalImage.wf (img : FractalImage) : Prop :=
  img.data.length = img.height ∧ ∀ row ∈ img.data, row.length = img.width

/-- Source: `FractalImage.add_hit(x, y, color)`: if `contains(x, y)`, replace
`data[y][x]` by `data[y][x].mix_color(color)` (default weight 1), else do
nothing.  Indexing only happens after the bounds check, so the in-bounds
indices are the non-negative `x.toNat`, `y.toNat`. -/
def FractalImage.add_hit (img : FractalImage) (x y : ℤ) (color : Color) : FractalImage :=
  if img.contains x y then
    { img with
      data := img.data.set y.toNat
        ((img.data.getD y.toNat []).set x.toNat
          ((img.getPixel x.toNat y.toNat).mix_color1 color)) }
  else img

/-- Source: `main.py` `map_to_pixel(rect, point, image)`: scale the offset of the
point inside the world rectangle to pixel indices with Python `int()`
(truncation toward zero), and return them only if in bounds. -/
def map_to_pixel (rect : Rect) (point : Point) (image : FractalImage) :
    Option (ℤ × ℤ) :=
  let x := pyInt ((point.x - rect.x) / rect.width * image.width)
  let y := pyInt ((point.y - rect.y) / rect.height * image.height)
  if image.contains x y then some (x, y) else none

/-- Modelled from the spec's words, for comparison with `map_to_pixel`:
`pixelX = floor((px - worldX)/worldWidth * imageWidth)`, `pixelY`
analogous, kept when in bounds. -/
def map_to_pixel_floor (rect : Rect) (point : Point) (image : FractalImage) :
    Option (ℤ × ℤ) :=
  let x := ⌊(point.x - rect.x) / rect.width * image.width⌋
  let y := ⌊(point.y - rect.y) / rect.height * image.height⌋
  if image.contains x y then some (x, y) else none

/-- Python float division, which raises `ZeroDivisionError` on a zero
denominator. -/
def qdiv (a b : ℚ) : Option ℚ := if b = 0 then none else some (a / b)

/-- Source: `main.py` `spherical`: guarded reciprocal-radius transform.  The
divisions are reached only when `r2 ≠ 0`. -/
def spherical (point : Point) : Option Point :=
  let r2 := point.x ^ 2 + point.y ^ 2
  if r2 = 0 then some ⟨0, 0⟩
  else
    match qdiv point.x r2, qdiv point.y r2 with
    | some nx, some ny => some ⟨nx, ny⟩
    | _, _ => none

/-- Source: `main.py` `sinusoidal`, with `math.sin` abstracted as `sinQ`. -/
def sinusoidal (sinQ : ℚ → ℚ) (point : Point) : Option Point :=
  some ⟨sinQ point.x, sinQ point.y⟩

/-- Source: `main.py` `diamond`. -/
def diamond (point : Point) : Option Point :=
  some ⟨|point.x|, |point.y|⟩

/-- Source: `main.py` `fish`, with `math.sin` abstracted as `sinQ`. -/
def fish (sinQ : ℚ → ℚ) (point : Point) : Option Point :=
  some ⟨point.x + sinQ point.y, point.y + sinQ point.x⟩

/-- Source: `main.py` `swirl`, with `math.sin`/`math.cos` abstracted. -/
def swirl (sinQ cosQ : ℚ → ℚ) (point : Point) : Option Point :=
  let r2 := point.x ^ 2 + point.y ^ 2
  some ⟨point.x * sinQ r2 - point.y * cosQ r2,
        point.x * cosQ r2 + point.y * sinQ r2⟩

/-- Source: `main.py` `linear`: the identity. -/
def linear (point : Point) : Option Point := some point

/-- Source: `main.py` `TRANSFORMATIONS`, in source order. -/
def TRANSFORMATIONS (sinQ cosQ : ℚ → ℚ) : List (Point → Option Point) :=
  [spherical, sinusoidal sinQ, swirl sinQ cosQ, linear, diamond, fish sinQ]

/-- One color channel as drawn in `generate_fractal`:
`int(255 * random.random())` with the uniform draw `u ∈ [0,1)` explicit. -/
def pyChannel (u : ℚ) : ℤ := pyInt (255 * u)

/-- The color `(int(255*u1), int(255*u2), int(255*u3))` drawn per hit. -/
def mkColor (u : ℚ × ℚ × ℚ) : Color :=
  (pyChannel u.1, pyChannel u.2.1, pyChannel u.2.2)

/-- The random draws consumed by one `generate_fractal` run, pre-drawn and
indexed by (sample, iteration, symmetry copy): the start point of each
sample, the index chosen by `random.choice`, and the three uniform values
behind each hit color. -/
structure RandomOracle where
  start : ℕ → Point
  choice : ℕ → ℕ → ℕ
  rand : ℕ → ℕ → ℕ → ℚ × ℚ × ℚ

/-- Source: `main.py` `generate_fractal(image, world, transformations, samples,
iter_per_sample, symmetry)`: the chaos-game loop, as a fold over the
pre-drawn randomness.  `transformations` is the caller-supplied list of
point functions (`random.choice` abstracted as the oracle's index). -/
def generate_fractal (sinQ cosQ : ℚ → ℚ) (piQ : ℚ) (o : RandomOracle)
    (image : FractalImage) (world : Rect)
    (transformations : List (Point → Point))
    (samples iter_per_sample symmetry : ℕ) : FractalImage :=
  (List.range samples).foldl (fun image i =>
    ((List.range iter_per_sample).foldl (fun st j =>
      let transform := transformations.getD (o.choice i j) id
      let point := transform st.1
      let image' := (List.range symmetry).foldl (fun (im : FractalImage) (s : ℕ) =>
        let theta := 2 * piQ * (s : ℚ) / (symmetry : ℚ)
        let rotated := Point.mk (point.x * cosQ theta - point.y * sinQ theta)
                                (point.x * sinQ theta + point.y * cosQ theta)
        match map_to_pixel world rotated im with
        | some pc => im.add_hit pc.1 pc.2 (mkColor (o.rand i j s))
        | none => im) st.2
      (point, image')) (o.start i, image)).2) image

/-- Modelled from the claim, for the refinement comparison: the same
sampling loop with the rotational-copy step removed, plotting each
trajectory point unmodified (consuming the same random draws). -/
def generate_fractal_norot (o : RandomOracle) (image : FractalImage)
    (world : Rect) (transformations : List (Point → Point))
    (samples iter_per_sample : ℕ) : FractalImage :=
  (List.range samples).foldl (fun image i =>
    ((List.range iter_per_sample).foldl (fun st j =>
      let transform := transformations.getD (o.choice i j) id
      let point := transform st.1
      let image' :=
        match map_to_pixel world point st.2 with
        | some pc => st.2.add_hit pc.1 pc.2 (mkColor (o.rand i j 0))
        | none => st.2
      (point, image')) (o.start i, image)).2) image

/-- Source: `main.py` `parallel_generate_fractal`: the per-worker chunk
`samples_per_thread = samples // num_threads`. -/
def samples_per_thread (samples num_threads : ℕ) : ℕ := samples / num_threads

/-- The list of sample counts assigned to the launched workers, one entry
per `executor.submit` in `parallel_generate_fractal`'s futures list. -/
def worker_samples (samples num_threads : ℕ) : List ℕ :=
  (List.range num_threads).map (fun _ => samples_per_thread samples num_threads)

/-- All three channels of a pixel lie within `[0, 255]`. -/
def Pixel.inRange (p : Pixel) : Prop :=
  0 ≤ p.r ∧ p.r ≤ 255 ∧ 0 ≤ p.g ∧ p.g ≤ 255 ∧ 0 ≤ p.b ∧ p.b ≤ 255

/-- A color whose three channels lie within `[0, 255]`. -/
def validColor (c : Color) : Prop :=
  0 ≤ c.1 ∧ c.1 ≤ 255 ∧ 0 ≤ c.2.1 ∧ c.2.1 ≤ 255 ∧ 0 ≤ c.2.2 ∧ c.2.2 ≤ 255

instance (p : Pixel) : Decidable p.inRange := by unfold Pixel.inRange; infer_instance

instance (c : Color) : Decidable (validColor c) := by unfold validColor; infer_instance

instance (img : FractalImage) : Decidable img.wf := by
  unfold FractalImage.wf
  infer_instance

/-- Whether some uniform draw `u ∈ [0,1)` makes the channel expression
`int(255 * u)` reach the value 255. -/
def attainable255 : Prop := ∃ u : ℚ, 0 ≤ u ∧ u < 1 ∧ pyChannel u = 255

/-! ## Helper lemmas -/

/-- The floor of an exact quotient of integers with positive denominator is
integer Euclidean division. -/
lemma floor_intCast_div_intCast (a b : ℤ) (hb : 0 < b) :
    ⌊((a : ℚ)) / ((b : ℚ))⌋ = a / b := by
  have h : ((b.toNat : ℤ)) = b := Int.toNat_of_nonneg hb.le
  rw [← h]
  push_cast
  exact Rat.floor_intCast_div_natCast a b.toNat

/-- Python `int(a/b)` (truncation) is the floor of the exact quotient when
the numerator is non-negative and the denominator positive. -/
lemma tdiv_eq_floor_div (a b : ℤ) (ha : 0 ≤ a) (hb : 0 < b) :
    a.tdiv b = ⌊((a : ℚ)) / ((b : ℚ))⌋ := by
  rw [floor_intCast_div_intCast a b hb, Int.tdiv_eq_ediv ha hb.le]

/-- Truncated division of a value `≤ 255 * b` by `b > 0` stays `≤ 255`. -/
lemma tdiv_le_255 (a b : ℤ) (ha : 0 ≤ a) (hb : 0 < b) (h255 : a ≤ 255 * b) :
    a.tdiv b ≤ 255 := by
  rw [Int.tdiv_eq_ediv ha hb.le]
  have : a / b < 256 := by
    rw [Int.ediv_lt_iff_lt_mul hb]
    omega
  omega

/-- One weight-1 mix keeps the channels in `[0, 255]` and counts the hit. -/
lemma mix_color1_step (p : Pixel) (c : Color) (hp : p.inRange)
    (hc : validColor c) :
    (p.mix_color1 c).inRange ∧ (p.mix_color1 c).hit_count = p.hit_count + 1 := by
  obtain ⟨hr0, hr1, hg0, hg1, hb0, hb1⟩ := hp
  obtain ⟨hc0, hc1, hc2, hc3, hc4, hc5⟩ := hc
  have hn : (0 : ℤ) ≤ (p.hit_count : ℤ) := Int.natCast_nonneg _
  have hd : (0 : ℤ) < (p.hit_count : ℤ) + 1 := by omega
  have bound : ∀ ch col : ℤ, 0 ≤ ch → ch ≤ 255 → 0 ≤ col → col ≤ 255 →
      0 ≤ Int.tdiv (ch * p.hit_count + col * 1) ((p.hit_count : ℤ) + 1) ∧
      Int.tdiv (ch * p.hit_count + col * 1) ((p.hit_count : ℤ) + 1) ≤ 255 := by
    intro ch col h0 h1 h2 h3
    have hnum0 : 0 ≤ ch * p.hit_count + col * 1 := by positivity
    have hmul : ch * (p.hit_count : ℤ) ≤ 255 * p.hit_count :=
      mul_le_mul_of_nonneg_right h1 hn
    have hnum1 : ch * p.hit_count + col * 1 ≤ 255 * ((p.hit_count : ℤ) + 1) := by
      linarith
    exact ⟨Int.tdiv_nonneg hnum0 hd.le, tdiv_le_255 _ _ hnum0 hd hnum1⟩
  refine ⟨⟨(bound _ _ hr0 hr1 hc0 hc1).1, (bound _ _ hr0 hr1 hc0 hc1).2,
    (bound _ _ hg0 hg1 hc2 hc3).1, (bound _ _ hg0 hg1 hc2 hc3).2,
    (bound _ _ hb0 hb1 hc4 hc5).1, (bound _ _ hb0 hb1 hc4 hc5).2⟩, rfl⟩

/-- The weight-1 mix invariant carried through any list of colors. -/
lemma mix_seq_inv (cs : List Color) (p : Pixel) (hp : p.inRange)
    (hcs : ∀ c ∈ cs, validColor c) :
    (List.foldl Pixel.mix_color1 p cs).inRange ∧
    (List.foldl Pixel.mix_color1 p cs).hit_count = p.hit_count + cs.length := by
  induction cs generalizing p with
  | nil => simpa using hp
  | cons c cs ih =>
    have hc := hcs c (List.mem_cons_self c cs)
    have step := mix_color1_step p c hp hc
    have rest := ih (p.mix_color1 c) step.1
      (fun c' hc' => hcs c' (List.mem_cons_of_mem c hc'))
    refine ⟨rest.1, ?_⟩
    rw [List.foldl_cons, rest.2, step.2, List.length_cons]
    omega

/-- Reading a list after a point update. -/
lemma getD_set {α : Type} (l : List α) (i j : ℕ) (a d : α) :
    (l.set i a).getD j d = if i = j ∧ i < l.length then a else l.getD j d := by
  rw [List.getD_eq_getElem?_getD, List.getD_eq_getElem?_getD, List.getElem?_set]
  by_cases hij : i = j
  · subst hij
    by_cases hlen : i < l.length
    · simp [hlen]
    · simp [hlen, List.getElem?_eq_none (show l.length ≤ i from by omega)]
  · simp [hij]

/-- Source: `pyChannel` on a uniform draw `u ∈ [0,1)` lies in `[0, 254]`. -/
lemma pyChannel_bounds (u : ℚ) (h0 : 0 ≤ u) (h1 : u < 1) :
    0 ≤ pyChannel u ∧ pyChannel u ≤ 254 := by
  unfold pyChannel pyInt
  have hq : (0 : ℚ) ≤ 255 * u := by positivity
  rw [if_neg (not_lt.2 hq)]
  constructor
  · exact Int.floor_nonneg.2 hq
  · have hlt : (255 : ℚ) * u < 255 := by nlinarith
    have : ⌊(255 : ℚ) * u⌋ < (255 : ℤ) := Int.floor_lt.2 (by exact_mod_cast hlt)
    omega

/-! ## Claims -/

/-- C1 (counterexample): at pixel state `(0,0,0,3)`, color `(5,5,5)` and
weight `-1`, `mix_color` sets each channel to `int(-5/2) = -2`
(truncation toward zero), whereas the floor of the claimed formula is
`⌊-5/2⌋ = -3`: the channel update is NOT the floor for every weight. -/
theorem C1_mix_color_cex :
    Pixel.mix_color ⟨0, 0, 0, 3⟩ (5, 5, 5) (-1) = some ⟨-2, -2, -2, 4⟩ ∧
    ⌊(((0 : ℤ) * 3 + 5 * (-1) : ℤ) : ℚ) / (((3 : ℤ) + (-1) : ℤ) : ℚ)⌋ = -3 := by
  constructor
  · decide
  · norm_num

/-- C1 (amended): for every pixel state with non-negative channels and every
color with non-negative channels, and every weight `w ≥ 0` with
`hit_count + w > 0`, `mix_color` sets each channel to
`floor((old*hit_count + newChannel*w) / (hit_count+w))` and then increments
`hit_count` by exactly 1. -/
theorem C1_mix_color_floor (p : Pixel) (c : Color) (w : ℤ)
    (hw : 0 ≤ w) (hpos : 0 < (p.hit_count : ℤ) + w)
    (hr : 0 ≤ p.r) (hg : 0 ≤ p.g) (hb : 0 ≤ p.b)
    (hcr : 0 ≤ c.1) (hcg : 0 ≤ c.2.1) (hcb : 0 ≤ c.2.2) :
    p.mix_color c w = some
      { r := ⌊((p.r * p.hit_count + c.1 * w : ℤ) : ℚ) / (((p.hit_count : ℤ) + w : ℤ) : ℚ)⌋
        g := ⌊((p.g * p.hit_count + c.2.1 * w : ℤ) : ℚ) / (((p.hit_count : ℤ) + w : ℤ) : ℚ)⌋
        b := ⌊((p.b * p.hit_count + c.2.2 * w : ℤ) : ℚ) / (((p.hit_count : ℤ) + w : ℤ) : ℚ)⌋
        hit_count := p.hit_count + 1 } := by
  have hn : (0 : ℤ) ≤ (p.hit_count : ℤ) := Int.natCast_nonneg _
  unfold Pixel.mix_color
  rw [if_neg (by omega)]
  have num : ∀ ch col : ℤ, 0 ≤ ch → 0 ≤ col →
      Int.tdiv (ch * p.hit_count + col * w) ((p.hit_count : ℤ) + w)
        = ⌊((ch * p.hit_count + col * w : ℤ) : ℚ) / (((p.hit_count : ℤ) + w : ℤ) : ℚ)⌋ := by
    intro ch col h0 h1
    exact tdiv_eq_floor_div _ _ (by positivity) hpos
  rw [num _ _ hr hcr, num _ _ hg hcg, num _ _ hb hcb]

/-- C1 (witness): the amended statement applied at pixel `(10,20,30,1)`,
color `(100,110,120)`, weight `2`. -/
theorem C1_mix_color_witness :
    (0 : ℤ) ≤ 2 ∧ (0 : ℤ) < ((1 : ℕ) : ℤ) + 2 ∧
    Pixel.mix_color ⟨10, 20, 30, 1⟩ (100, 110, 120) 2 = some
      { r := ⌊(((10 : ℤ) * (1 : ℕ) + 100 * 2 : ℤ) : ℚ) / ((((1 : ℕ) : ℤ) + 2 : ℤ) : ℚ)⌋
        g := ⌊(((20 : ℤ) * (1 : ℕ) + 110 * 2 : ℤ) : ℚ) / ((((1 : ℕ) : ℤ) + 2 : ℤ) : ℚ)⌋
        b := ⌊(((30 : ℤ) * (1 : ℕ) + 120 * 2 : ℤ) : ℚ) / ((((1 : ℕ) : ℤ) + 2 : ℤ) : ℚ)⌋
        hit_count := (1 : ℕ) + 1 } :=
  ⟨by decide, by decide,
    C1_mix_color_floor ⟨10, 20, 30, 1⟩ (100, 110, 120) 2 (by decide) (by decide)
      (by decide) (by decide) (by decide) (by decide) (by decide) (by decide)⟩

/-- C4: starting from the zero-initialized pixel, any sequence of weight-1
`mix_color` calls with channels in `[0,255]` keeps `r`, `g`, `b` in
`[0,255]` and leaves `hit_count` equal to the number of calls (so each call
increments it by exactly 1); the claim's "after every call" follows because
this holds for every such sequence, in particular every prefix. -/
theorem C4_mix_invariant (cs : List Color) (hcs : ∀ c ∈ cs, validColor c) :
    (List.foldl Pixel.mix_color1 Pixel.init cs).inRange ∧
    (List.foldl Pixel.mix_color1 Pixel.init cs).hit_count = cs.length := by
  have h := mix_seq_inv cs Pixel.init (by decide) hcs
  have hz : Pixel.init.hit_count = 0 := rfl
  rw [hz, Nat.zero_add] at h
  exact h

/-- C4 (witness): the invariant applied to the call sequence
`[(255,0,10), (3,200,77)]`. -/
theorem C4_mix_invariant_witness :
    (∀ c ∈ [((255 : ℤ), (0 : ℤ), (10 : ℤ)), (3, 200, 77)], validColor c) ∧
    (List.foldl Pixel.mix_color1 Pixel.init
        [((255 : ℤ), (0 : ℤ), (10 : ℤ)), (3, 200, 77)]).inRange ∧
    (List.foldl Pixel.mix_color1 Pixel.init
        [((255 : ℤ), (0 : ℤ), (10 : ℤ)), (3, 200, 77)]).hit_count
      = [((255 : ℤ), (0 : ℤ), (10 : ℤ)), (3, 200, 77)].length :=
  ⟨by decide, C4_mix_invariant [(255, 0, 10), (3, 200, 77)] (by decide)⟩

/-- C3: for every well-formed buffer and all integer coordinates, `add_hit`
is a total function (no exception) whose result, read at any buffer
position `(x', y')`, is the old pixel mixed with the color exactly when
`(x, y)` was in bounds and `(x', y')` is that position, and the unchanged
old pixel everywhere else — in particular an out-of-bounds `(x, y)`
(negative values included) leaves every pixel unchanged. -/
theorem C3_add_hit_pointwise (img : FractalImage) (x y : ℤ) (c : Color)
    (hwf : img.wf) (x' y' : ℕ) :
    (img.add_hit x y c).getPixel x' y' =
      if img.contains x y = true ∧ x' = x.toNat ∧ y' = y.toNat
      then (img.getPixel x' y').mix_color1 c
      else img.getPixel x' y' := by
  by_cases hin : img.contains x y = true
  · have hb : 0 ≤ x ∧ x < (img.width : ℤ) ∧ 0 ≤ y ∧ y < (img.height : ℤ) := by
      simpa [FractalImage.contains] using hin
    have hylen : y.toNat < img.data.length := by
      rw [hwf.1]
      omega
    have hrow : img.data.getD y.toNat [] ∈ img.data := by
      rw [List.getD_eq_getElem?_getD, List.getElem?_eq_getElem hylen]
      exact List.getElem_mem hylen
    have hxlen : x.toNat < (img.data.getD y.toNat []).length := by
      rw [hwf.2 _ hrow]
      omega
    unfold FractalImage.add_hit
    rw [if_pos hin]
    unfold FractalImage.getPixel
    simp only
    rw [getD_set]
    by_cases hyy : y.toNat = y'
    · rw [if_pos ⟨hyy, hylen⟩, getD_set]
      by_cases hxx : x.toNat = x'
      · rw [if_pos ⟨hxx, hxlen⟩, if_pos ⟨hin, hxx.symm, hyy.symm⟩, hxx, hyy]
      · rw [if_neg (by tauto), if_neg (by tauto), hyy]
    · rw [if_neg (by tauto), if_neg (by tauto)]
  · unfold FractalImage.add_hit
    rw [if_neg (by simpa using hin), if_neg (by tauto)]

/-- C3 (witness): `add_hit` on a well-formed 3×2 buffer at `(1, 0)`, read
back at position `(1, 0)`. -/
theorem C3_add_hit_pointwise_witness :
    (FractalImage.init 3 2).wf ∧
    ((FractalImage.init 3 2).add_hit 1 0 (9, 9, 9)).getPixel 1 0 =
      (if (FractalImage.init 3 2).contains 1 0 = true ∧
          1 = (1 : ℤ).toNat ∧ 0 = (0 : ℤ).toNat
       then ((FractalImage.init 3 2).getPixel 1 0).mix_color1 (9, 9, 9)
       else (FractalImage.init 3 2).getPixel 1 0) :=
  ⟨by decide, C3_add_hit_pointwise (FractalImage.init 3 2) 1 0 (9, 9, 9) (by decide) 1 0⟩

/-- C5: for every `samples` and `num_threads ≥ 1`, the parallel driver
builds exactly `num_threads` worker invocations, each assigned
`samples / num_threads` samples, so the total processed is
`num_threads * (samples / num_threads) = samples - samples % num_threads`
(the integer-division remainder is dropped). -/
theorem C5_worker_split (samples num_threads : ℕ) (h : 1 ≤ num_threads) :
    (worker_samples samples num_threads).length = num_threads ∧
    (∀ n ∈ worker_samples samples num_threads, n = samples / num_threads) ∧
    (worker_samples samples num_threads).sum
      = num_threads * (samples / num_threads) ∧
    num_threads * (samples / num_threads) = samples - samples % num_threads := by
  refine ⟨by simp [worker_samples], ?_, ?_, ?_⟩
  · intro n hn
    simp only [worker_samples, List.mem_map] at hn
    obtain ⟨i, _, rfl⟩ := hn
    rfl
  · simp [worker_samples, samples_per_thread, List.map_const', List.sum_replicate]
  · have := Nat.div_add_mod samples num_threads
    omega

/-- C5 (witness): the split applied at `samples = 10`, `num_threads = 3`:
three workers of 3 samples each, 9 samples total, remainder 1 dropped. -/
theorem C5_worker_split_witness :
    1 ≤ 3 ∧
    ((worker_samples 10 3).length = 3 ∧
     (∀ n ∈ worker_samples 10 3, n = 10 / 3) ∧
     (worker_samples 10 3).sum = 3 * (10 / 3) ∧
     3 * (10 / 3) = 10 - 10 % 3) :=
  ⟨by decide, C5_worker_split 10 3 (by decide)⟩

/-- C2 (counterexample): on the program's world rectangle
`(-1.5, -1.5, 3, 3)` with a 10×10 image, the point `(-31/20, 0)` has
`px < worldX` and scaled x-offset `-1/6`; the code truncates it toward zero
to pixel 0 and registers the hit at `(0, 5)`, whereas the claimed floor
mapping would give pixel `-1`, out of bounds, and drop the hit. -/
theorem C2_map_to_pixel_cex :
    map_to_pixel ⟨-3/2, -3/2, 3, 3⟩ ⟨-31/20, 0⟩ (FractalImage.init 10 10)
      = some (0, 5) ∧
    map_to_pixel_floor ⟨-3/2, -3/2, 3, 3⟩ ⟨-31/20, 0⟩ (FractalImage.init 10 10)
      = none := by
  have hceil : (⌈(-(1/6) : ℚ)⌉ : ℤ) = 0 := by norm_num
  have hfloor : (⌊(-(1/6) : ℚ)⌋ : ℤ) = -1 := by norm_num
  constructor
  · norm_num [map_to_pixel, pyInt, FractalImage.init, FractalImage.contains, hceil]
  · norm_num [map_to_pixel_floor, FractalImage.init, FractalImage.contains, hfloor]

/-- C2 (amended): the coordinate mapping computes
`pixelX = int((px - worldX)/worldWidth * imageWidth)` with Python `int()`
truncation toward zero; for every point with `px ≥ worldX` and
`py ≥ worldY` (non-negative scaled offsets, as the claim's floor and
truncation then agree) it equals the floor-based mapping, but for
`px < worldX` or `py < worldY` it truncates toward zero, not floor. -/
theorem C2_map_to_pixel_floor_agreement (rect : Rect) (point : Point)
    (image : FractalImage) (hw : 0 < rect.width) (hh : 0 < rect.height)
    (hx : rect.x ≤ point.x) (hy : rect.y ≤ point.y) :
    map_to_pixel rect point image = map_to_pixel_floor rect point image := by
  have h1 : 0 ≤ (point.x - rect.x) / rect.width * (image.width : ℚ) := by
    have := sub_nonneg.2 hx
    positivity
  have h2 : 0 ≤ (point.y - rect.y) / rect.height * (image.height : ℚ) := by
    have := sub_nonneg.2 hy
    positivity
  unfold map_to_pixel map_to_pixel_floor pyInt
  rw [if_neg (not_lt.2 h1), if_neg (not_lt.2 h2)]

/-- C2 (witness): agreement applied on the world rectangle `(-2,-2,3,3)`
at the point `(0, 1)` with a 10×10 image. -/
theorem C2_map_to_pixel_floor_agreement_witness :
    (0 : ℚ) < 3 ∧ (0 : ℚ) < 3 ∧ (-2 : ℚ) ≤ 0 ∧ (-2 : ℚ) ≤ 1 ∧
    map_to_pixel ⟨-2, -2, 3, 3⟩ ⟨0, 1⟩ (FractalImage.init 10 10)
      = map_to_pixel_floor ⟨-2, -2, 3, 3⟩ ⟨0, 1⟩ (FractalImage.init 10 10) :=
  ⟨by norm_num, by norm_num, by norm_num, by norm_num,
    C2_map_to_pixel_floor_agreement ⟨-2, -2, 3, 3⟩ ⟨0, 1⟩ (FractalImage.init 10 10)
      (by norm_num) (by norm_num) (by norm_num) (by norm_num)⟩

/-- C6: `contains(x, y)` is true iff `0 ≤ x < width` and `0 ≤ y < height`,
for all integers `x`, `y` (negative and arbitrarily large included). -/
theorem C6_contains_iff (img : FractalImage) (x y : ℤ) :
    img.contains x y = true ↔
      (0 ≤ x ∧ x < (img.width : ℤ) ∧ 0 ≤ y ∧ y < (img.height : ℤ)) := by
  simp [FractalImage.contains]

/-- C7: the spherical transform applied to `(0, 0)` takes the zero-radius
fallback branch and returns `(0, 0)` without reaching a division; and every
transform in the catalog, applied to any point, returns a defined point
(`isSome`): the only division in the catalog is the one in `spherical`,
guarded by the `r2 = 0` check. -/
theorem C7_transforms_total :
    spherical ⟨0, 0⟩ = some ⟨0, 0⟩ ∧
    ∀ (sinQ cosQ : ℚ → ℚ) (t : Point → Option Point) (p : Point),
      t ∈ TRANSFORMATIONS sinQ cosQ → (t p).isSome = true := by
  have hsph : ∀ p : Point, (spherical p).isSome = true := by
    intro p
    unfold spherical qdiv
    by_cases h : p.x ^ 2 + p.y ^ 2 = 0
    · rw [if_pos h]
      rfl
    · rw [if_neg h, if_neg h, if_neg h]
      rfl
  constructor
  · unfold spherical
    norm_num
  · intro sinQ cosQ t p ht
    simp only [TRANSFORMATIONS, List.mem_cons, List.not_mem_nil, or_false] at ht
    rcases ht with rfl | rfl | rfl | rfl | rfl | rfl
    · exact hsph p
    · rfl
    · rfl
    · rfl
    · rfl
    · rfl

/-- C7 (witness): the totality statement applied to `spherical`, the first
catalog entry, at the point `(3, 4)`. -/
theorem C7_transforms_total_witness :
    spherical ∈ TRANSFORMATIONS (fun _ => 0) (fun _ => 1) ∧
    (spherical ⟨3, 4⟩).isSome = true :=
  ⟨List.Mem.head _,
    C7_transforms_total.2 (fun _ => 0) (fun _ => 1) spherical ⟨3, 4⟩ (List.Mem.head _)⟩

/-- C9 (counterexample): no uniform draw `u ∈ [0,1)` makes the channel
expression `int(255 * u)` reach the value 255, contradicting the claim that
every value from 0 through 255 is attainable (channels are not uniform over
`[0, 255]`). -/
theorem C9_channel_cex : attainable255 = False := by
  apply eq_false
  rintro ⟨u, h0, h1, he⟩
  have h := pyChannel_bounds u h0 h1
  rw [pyChannel] at he h
  omega

/-- C9 (amended): each channel is `int(255 * u)` for an independent uniform
draw `u ∈ [0,1)`: it is an integer in `[0, 254]`, and every value `k` from
0 through 254 is attained (e.g. by the draw `u = k/255`); the value 255 is
never produced. -/
theorem C9_channel_range (u : ℚ) (h0 : 0 ≤ u) (h1 : u < 1)
    (k : ℤ) (hk0 : 0 ≤ k) (hk1 : k ≤ 254) :
    (0 ≤ pyChannel u ∧ pyChannel u ≤ 254) ∧
    (0 ≤ (k : ℚ) / 255 ∧ (k : ℚ) / 255 < 1 ∧ pyChannel ((k : ℚ) / 255) = k) := by
  refine ⟨pyChannel_bounds u h0 h1, ?_, ?_, ?_⟩
  · positivity
  · rw [div_lt_one (by norm_num : (0 : ℚ) < 255)]
    exact_mod_cast by omega
  · unfold pyChannel pyInt
    have h255 : (255 : ℚ) * ((k : ℚ) / 255) = (k : ℚ) := by
      rw [mul_comm, div_mul_cancel₀ _ (by norm_num : (255 : ℚ) ≠ 0)]
    rw [h255, if_neg (not_lt.2 (by exact_mod_cast hk0)), Int.floor_intCast]

/-- C9 (witness): the amended statement applied at `u = 1/2`, `k = 7`. -/
theorem C9_channel_range_witness :
    (0 : ℚ) ≤ 1/2 ∧ (1/2 : ℚ) < 1 ∧ (0 : ℤ) ≤ 7 ∧ (7 : ℤ) ≤ 254 ∧
    ((0 ≤ pyChannel (1/2) ∧ pyChannel (1/2) ≤ 254) ∧
      (0 ≤ ((7 : ℤ) : ℚ) / 255 ∧ ((7 : ℤ) : ℚ) / 255 < 1 ∧
        pyChannel (((7 : ℤ) : ℚ) / 255) = 7)) :=
  ⟨by norm_num, by norm_num, by decide, by decide,
    C9_channel_range (1/2) (by norm_num) (by norm_num) 7 (by decide) (by decide)⟩

/-- C8 (counterexample): at pixel state `(0,0,0,0)` and weight `0` — an
`int`, hence accepted by the `weight: int = 1` interface — the denominator
`hit_count + weight` is 0 and the division raises `ZeroDivisionError`
instead of returning normally. -/
theorem C8_mix_color_cex : Pixel.mix_color ⟨0, 0, 0, 0⟩ (0, 0, 0) 0 = none := by
  decide

/-- C8 (amended): `mix_color` returns normally for every pixel state, every
color, and every weight `w` with `hit_count + w ≠ 0` (in particular for
every `w ≥ 1`, so for all calls the program makes); it fails exactly when
`w = -hit_count` makes the denominator zero. -/
theorem C8_mix_color_total (p : Pixel) (c : Color) (w : ℤ)
    (h : (p.hit_count : ℤ) + w ≠ 0) : (p.mix_color c w).isSome = true := by
  unfold Pixel.mix_color
  rw [if_neg h]
  rfl

/-- C8 (witness): the amended statement applied at pixel `(1,2,3,4)`,
color `(5,6,7)`, weight `1`. -/
theorem C8_mix_color_total_witness :
    ((4 : ℕ) : ℤ) + 1 ≠ 0 ∧ (Pixel.mix_color ⟨1, 2, 3, 4⟩ (5, 6, 7) 1).isSome = true :=
  ⟨by decide, C8_mix_color_total ⟨1, 2, 3, 4⟩ (5, 6, 7) 1 (by decide)⟩

/-- C10: with `symmetry = 1` (the only value `main` passes), the single
rotation angle is `theta = 2·π·0/1 = 0`, `cos 0 = 1` and `sin 0 = 0` are
exact, so the rotational-copy step is the identity on every point and
`generate_fractal` coincides exactly — same hits, same colors, same final
buffer — with the same sampling loop with the rotation step removed.  The
hypotheses state the two exact values of the abstracted `sin`/`cos`. -/
theorem C10_symmetry_one_identity (sinQ cosQ : ℚ → ℚ) (piQ : ℚ)
    (o : RandomOracle) (image : FractalImage) (world : Rect)
    (transformations : List (Point → Point)) (samples iter_per_sample : ℕ)
    (hs : sinQ 0 = 0) (hc : cosQ 0 = 1) :
    generate_fractal sinQ cosQ piQ o image world transformations
        samples iter_per_sample 1
      = generate_fractal_norot o image world transformations
          samples iter_per_sample := by
  unfold generate_fractal generate_fractal_norot
  apply List.foldl_ext
  intro img i _
  congr 1
  apply List.foldl_ext
  intro st j _
  have hr1 : List.range 1 = [0] := rfl
  simp only [hr1, List.foldl_cons, List.foldl_nil, Nat.cast_zero,
    Nat.cast_one, mul_zero, zero_div, hs, hc, mul_one, sub_zero, zero_add]

/-- C10 (witness): the equivalence applied to concrete stand-ins for
`sin`/`cos` that are exact at 0, a concrete oracle, a 2×2 image on the
world square `(-3/2,-3/2,3,3)`, the identity transform list, 2 samples and
3 iterations per sample. -/
theorem C10_symmetry_one_identity_witness :
    (fun _ : ℚ => (0 : ℚ)) 0 = 0 ∧ (fun _ : ℚ => (1 : ℚ)) 0 = 1 ∧
    generate_fractal (fun _ => 0) (fun _ => 1) 3
        ⟨fun _ => ⟨1/2, 1/2⟩, fun _ _ => 0, fun _ _ _ => (1/2, 1/2, 1/2)⟩
        (FractalImage.init 2 2) ⟨-3/2, -3/2, 3, 3⟩ [fun p => p] 2 3 1
      = generate_fractal_norot
          ⟨fun _ => ⟨1/2, 1/2⟩, fun _ _ => 0, fun _ _ _ => (1/2, 1/2, 1/2)⟩
          (FractalImage.init 2 2) ⟨-3/2, -3/2, 3, 3⟩ [fun p => p] 2 3 :=
  ⟨rfl, rfl,
    C10_symmetry_one_identity (fun _ => 0) (fun _ => 1) 3
      ⟨fun _ => ⟨1/2, 1/2⟩, fun _ _ => 0, fun _ _ _ => (1/2, 1/2, 1/2)⟩
      (FractalImage.init 2 2) ⟨-3/2, -3/2, 3, 3⟩ [fun p => p] 2 3 rfl rfl⟩

end FractalFlame

